import Mathlib

/-!
Verification development for the cpplumber information-leak detector.

The Rust sources are embedded shallowly:
* strings are `List Char` (Rust `char` sequences); byte buffers are `List Nat`
  with every element a byte value;
* fallible Rust functions land in `RustOutcome`: `.panicked` models a Rust
  panic (an out-of-bounds or non-boundary string index), `.err` models a
  returned `Err`/`None`, `.ok` carries the success value;
* Rust `&str` byte slicing (`s[a..b]`) is modelled UTF-8-byte-exactly by
  `takeBytes`/`dropBytes`/`sliceBytes`, which fail precisely when the index
  is out of bounds or not on a character boundary, as in Rust.
-/

namespace Cpplumber

/-- Outcome of running a fallible piece of Rust code: panic, `Err`, or success. -/
inductive RustOutcome (α : Type) where
  | panicked : RustOutcome α
  | err : RustOutcome α
  | ok : α → RustOutcome α
deriving DecidableEq

/-- Functorial action on the success value of a `RustOutcome`. -/
def RustOutcome.map {α β : Type} (f : α → β) : RustOutcome α → RustOutcome β
  | .panicked => .panicked
  | .err => .err
  | .ok a => .ok (f a)

/-- View an `Option` (Rust `Option`, `None` meaning failure) as a `RustOutcome`. -/
def RustOutcome.ofOption {α : Type} : Option α → RustOutcome α
  | none => .err
  | some a => .ok a

/-- Number of bytes of the UTF-8 encoding of a character (Rust `char::len_utf8`). -/
def charUtf8Size (c : Char) : Nat :=
  if c.toNat < 0x80 then 1
  else if c.toNat < 0x800 then 2
  else if c.toNat < 0x10000 then 3
  else 4

/-- Byte length of the UTF-8 encoding of a string (Rust `str::len`). -/
def utf8ByteLen (s : List Char) : Nat := (s.map charUtf8Size).sum

/-- UTF-8 encoding of one character, as byte values. -/
def utf8EncodeChar (c : Char) : List Nat :=
  let v := c.toNat
  if v < 0x80 then [v]
  else if v < 0x800 then [0xC0 + v / 64, 0x80 + v % 64]
  else if v < 0x10000 then [0xE0 + v / 4096, 0x80 + v / 64 % 64, 0x80 + v % 64]
  else [0xF0 + v / 262144, 0x80 + v / 4096 % 64, 0x80 + v / 64 % 64, 0x80 + v % 64]

/-- UTF-8 encoding of a string, as byte values (Rust `str::as_bytes`). -/
def utf8Encode (s : List Char) : List Nat := (s.map utf8EncodeChar).flatten

/-- The characters making up the first `k` BYTES of `s`, or `none` when `k` is
out of bounds or falls inside the UTF-8 encoding of a character. This is the
success/panic condition of Rust `&s[..k]`. -/
def takeBytes : List Char → Nat → Option (List Char)
  | _, 0 => some []
  | [], _ + 1 => none
  | c :: rest, k + 1 =>
      if charUtf8Size c ≤ k + 1 then (takeBytes rest (k + 1 - charUtf8Size c)).map (c :: ·)
      else none

/-- The characters of `s` after its first `k` bytes, or `none` when `k` is out
of bounds or not on a character boundary (Rust `&s[k..]`). -/
def dropBytes : List Char → Nat → Option (List Char)
  | s, 0 => some s
  | [], _ + 1 => none
  | c :: rest, k + 1 =>
      if charUtf8Size c ≤ k + 1 then dropBytes rest (k + 1 - charUtf8Size c)
      else none

/-- The characters of the byte slice `s[a..b]` of Rust, `none` exactly when Rust
would panic (`a > b`, an index out of bounds, or an index inside a character). -/
def sliceBytes (s : List Char) (a b : Nat) : Option (List Char) :=
  if a ≤ b then (dropBytes s a).bind (fun t => takeBytes t (b - a)) else none

/-- Rust `char::is_digit(8)`: the character is an octal digit. -/
def is_digit_8 (c : Char) : Bool := 48 ≤ c.toNat && c.toNat ≤ 55

/-- Value of a list of octal digit characters read base 8 (most significant first). -/
def octal_list_val (ds : List Char) : Nat := ds.foldl (fun a c => a * 8 + (c.toNat - 48)) 0

/-- Rust `u8::from_str_radix(ds, 8)`: an optional leading plus sign, then at
least one octal digit, and the value must fit in a byte; otherwise `Err`. -/
def from_str_radix_8 (ds : List Char) : Option Nat :=
  let ds2 := if ds.head? = some '+' then ds.tail else ds
  if ds2.isEmpty then none
  else if ds2.all is_digit_8 then
    if octal_list_val ds2 ≤ 255 then some (octal_list_val ds2) else none
  else none

/-- The simple one-letter escape table of `process_escape_sequences`
(src/src/information_leak/potential_leak.rs, match arms for a, b, t, n, v, f, r). -/
def simple_escape_char (c : Char) : Option Char :=
  if c = 'a' then some (Char.ofNat 7)
  else if c = 'b' then some (Char.ofNat 8)
  else if c = 't' then some (Char.ofNat 9)
  else if c = 'n' then some (Char.ofNat 10)
  else if c = 'v' then some (Char.ofNat 11)
  else if c = 'f' then some (Char.ofNat 12)
  else if c = 'r' then some (Char.ofNat 13)
  else none

/-- How many extra octal digits (0, 1 or 2) follow the first one. `tl` is the
character list right after the first octal digit; this mirrors the
`second_char`/`third_char` lookahead of the Rust octal branch. -/
def octal_extra : List Char → Nat
  | [] => 0
  | c2 :: rest2 =>
      if is_digit_8 c2 then
        match rest2 with
        | [] => 1
        | c3 :: _ => if is_digit_8 c3 then 2 else 1
      else 0

mutual

/-- The loop of `process_escape_sequences`
(src/src/information_leak/potential_leak.rs lines 257-320; the identical
function also appears in src/src/information_leak.rs lines 246-309).

`full` is the whole input, `rest` the characters not yet enumerated, `pos` the
CHARACTER position of `rest.head` in `full` (the loop enumerates characters),
`skipUntil` and `owned` the mutable loop state. Byte slices (`string[..position]`
and `string[start_position..end_position]`) use those character positions as
BYTE indices, exactly as the Rust code does, so they go through
`takeBytes`/`sliceBytes` and can panic. -/
def pesLoop (full : List Char) (rest : List Char) (pos skipUntil : Nat)
    (owned : Option (List Char)) : RustOutcome (List Char) :=
  match rest with
  | [] => .ok (owned.getD full)
  | c :: rest1 =>
    if pos < skipUntil then pesLoop full rest1 (pos + 1) skipUntil owned
    else if c = '\\' then
      (Option.elim (owned.elim (takeBytes full pos) some)
        RustOutcome.panicked (fun b => pesEscape full rest1 pos b))
    else pesLoop full rest1 (pos + 1) skipUntil (owned.map (fun o => o ++ [c]))
termination_by (rest.length, 0)

/-- The body of the `if char == '\\'` branch once the prefix `b` has been
built: look at the character after the backslash (`rest` holds the characters
after the backslash at position `pos`) and dispatch on the escape kind. -/
def pesEscape (full : List Char) (rest : List Char) (pos : Nat) (b : List Char) :
    RustOutcome (List Char) :=
  match rest with
  | [] => .err
  | first :: rest2 =>
    Option.elim (simple_escape_char first)
      (if is_digit_8 first then
        Option.elim (sliceBytes full (pos + 1) (pos + 2 + octal_extra rest2))
          RustOutcome.panicked
          (fun ds => Option.elim (from_str_radix_8 ds) RustOutcome.err
            (fun v =>
              pesLoop full (first :: rest2) (pos + 1) (pos + 2 + octal_extra rest2)
                (some (b ++ [Char.ofNat v]))))
      else pesLoop full (first :: rest2) (pos + 1) (pos + 2) (some (b ++ [first])))
      (fun e => pesLoop full (first :: rest2) (pos + 1) (pos + 2) (some (b ++ [e])))
termination_by (rest.length, 1)
end

/-- `process_escape_sequences` from src/src/information_leak/potential_leak.rs:
decode the escape sequences of a string-literal payload. The returned value is
the character content of the produced `Cow` (`Borrowed` returns the input). -/
def process_escape_sequences (s : List Char) : RustOutcome (List Char) :=
  pesLoop s s 0 0 none

mutual

/-- The escape-decoding clauses as the specification states them, on character
sequences: simple one-letter escapes map to their control characters, any other
single-character escape yields the character verbatim, an octal escape consumes
one to three octal digits (stopping at the first non-octal digit or after the
third) and emits one value read base 8 (via `u8::from_str_radix`, so values
above 255 fail), non-escaped characters pass through unchanged, and a lone
trailing backslash is a decoding error. -/
def escape_sequences_spec : List Char → Option (List Char)
  | [] => some []
  | c :: tl =>
    if c = '\\' then spec_escape tl
    else (escape_sequences_spec tl).map (c :: ·)
termination_by s => (s.length, 0)

/-- The clause for the character following a backslash: nothing is an error;
a simple escape letter maps to its control character; an octal digit starts an
octal escape absorbing up to two more octal digits (stopping at the first
non-octal digit or after the third), read base 8 into one byte; anything else
passes through verbatim. -/
def spec_escape : List Char → Option (List Char)
  | [] => none
  | e :: tl2 =>
    Option.elim (simple_escape_char e)
      (if is_digit_8 e then
        (if octal_list_val (e :: tl2.take (octal_extra tl2)) ≤ 255 then
          (escape_sequences_spec (tl2.drop (octal_extra tl2))).map
            (Char.ofNat (octal_list_val (e :: tl2.take (octal_extra tl2))) :: ·)
         else none)
       else (escape_sequences_spec tl2).map (e :: ·))
      (fun r => (escape_sequences_spec tl2).map (r :: ·))
termination_by tl => (tl.length, 1)
decreasing_by
  all_goals apply Prod.Lex.left
  all_goals simp only [List.length_cons, List.length_drop]
  all_goals omega

end

/-- Kind of wide chars to use when encoding wide strings
(src/src/information_leak/potential_leak.rs `WideCharMode`). -/
inductive WideCharMode where
  | windows : WideCharMode
  | unix : WideCharMode
deriving DecidableEq

/-- String encoding specified for a string literal
(src/src/information_leak/potential_leak.rs `StringLiteralEncoding`). -/
inductive StringLiteralEncoding where
  | unspecified : StringLiteralEncoding
  | wide : StringLiteralEncoding
  | utf8 : StringLiteralEncoding
  | utf16 : StringLiteralEncoding
  | utf32 : StringLiteralEncoding
deriving DecidableEq

/-- `widestring::encode_utf16` on one character: its UTF-16 code units. -/
def encodeUtf16Char (c : Char) : List Nat :=
  if c.toNat < 0x10000 then [c.toNat]
  else [0xD800 + (c.toNat - 0x10000) / 0x400, 0xDC00 + (c.toNat - 0x10000) % 0x400]

/-- `u16::to_le_bytes`: a 16-bit value as two little-endian bytes. -/
def u16le (n : Nat) : List Nat := [n % 256, n / 256 % 256]

/-- `u32::to_le_bytes`: a 32-bit value as four little-endian bytes. -/
def u32le (n : Nat) : List Nat := [n % 256, n / 256 % 256, n / 65536 % 256, n / 16777216 % 256]

/-- The UTF-16LE byte stream of a character sequence: `encode_utf16` followed by
`u16::to_le_bytes` on every code unit, as in `string_literal_to_bytes`. -/
def encode_utf16_bytes (s : List Char) : List Nat :=
  ((s.map encodeUtf16Char).flatten.map u16le).flatten

/-- The UTF-32LE byte stream of a character sequence: `encode_utf32` followed by
`u32::to_le_bytes` on every scalar, as in `string_literal_to_bytes`. -/
def encode_utf32_bytes (s : List Char) : List Nat :=
  (s.map (fun c => u32le c.toNat)).flatten

/-- `parse_string_literal` from src/src/information_leak/potential_leak.rs
(lines 203-255): split a literal as written in source into its encoding tag and
payload. The payload is the byte slice `1..len-1`, `2..len-1` or `3..len-1`
of the literal, with `len` the literal's byte length; a slice that is out of
bounds or cuts a character panics. -/
def parse_string_literal (lit : List Char) :
    RustOutcome (StringLiteralEncoding × List Char) :=
  match lit with
  | [] => .err
  | first :: rest =>
    let len := utf8ByteLen lit
    if first = '"' then
      match sliceBytes lit 1 (len - 1) with
      | none => .panicked
      | some p => .ok (.unspecified, p)
    else if first = 'L' then
      match sliceBytes lit 2 (len - 1) with
      | none => .panicked
      | some p => .ok (.wide, p)
    else if first = 'U' then
      match sliceBytes lit 2 (len - 1) with
      | none => .panicked
      | some p => .ok (.utf32, p)
    else if first = 'u' then
      match rest with
      | [] => .err
      | second :: rest2 =>
        match rest2 with
        | [] => .err
        | third :: _ =>
          if second = '8' ∧ third = '"' then
            match sliceBytes lit 3 (len - 1) with
            | none => .panicked
            | some p => .ok (.utf8, p)
          else
            match sliceBytes lit 2 (len - 1) with
            | none => .panicked
            | some p => .ok (.utf16, p)
    else .err

/-- `string_literal_to_bytes` from src/src/information_leak/potential_leak.rs
(lines 116-199): decode a literal as written in source into the bytes it
contributes to the binary. `platform_windows` models `cfg!(windows)`, used for
the default wide-char mode when no `WideCharMode` is passed. -/
def string_literal_to_bytes (lit : List Char) (wide_char_mode : Option WideCharMode)
    (platform_windows : Bool) : RustOutcome (List Nat) :=
  let m := wide_char_mode.getD (if platform_windows then .windows else .unix)
  match parse_string_literal lit with
  | .panicked => .panicked
  | .err => .err
  | .ok (enc, string_content) =>
    match process_escape_sequences string_content with
    | .panicked => .panicked
    | .err => .err
    | .ok chars =>
      .ok (match enc with
        | .unspecified => utf8Encode chars
        | .utf8 => utf8Encode chars
        | .wide =>
            match m with
            | .windows => encode_utf16_bytes chars
            | .unix => encode_utf32_bytes chars
        | .utf16 => encode_utf16_bytes chars
        | .utf32 => encode_utf32_bytes chars)

/-- Kind of leaked data (src/src/information_leak/mod.rs `LeakedDataType`). -/
inductive LeakedDataType where
  | stringLiteral : LeakedDataType
  | structName : LeakedDataType
  | className : LeakedDataType
deriving DecidableEq

/-- Source location of a declaration (src/src/information_leak/leak_location.rs
`SourceLocation`); paths are modelled as strings, `canonicalize` as identity. -/
structure SourceLocation where
  file : String
  line : Nat
deriving DecidableEq

/-- A piece of source data that may leak into the binary
(src/src/information_leak/potential_leak.rs `PotentialLeak`). -/
structure PotentialLeak where
  data_type : LeakedDataType
  data : List Char
  bytes : List Nat
  declaration_metadata : SourceLocation
deriving DecidableEq

/-- Location of leaked bytes inside the scanned binary
(src/src/information_leak/leak_location.rs `BinaryLocation`). -/
structure BinaryLocation where
  file : String
  offset : Nat
deriving DecidableEq

/-- Source and binary locations of a confirmed leak
(src/src/information_leak/leak_location.rs `LeakLocation`). -/
structure LeakLocation where
  source : SourceLocation
  binary : BinaryLocation
deriving DecidableEq

/-- A confirmed leak (src/src/information_leak/confirmed_leak.rs
`ConfirmedLeak`). -/
structure ConfirmedLeak where
  data_type : LeakedDataType
  data : List Char
  location : LeakLocation
deriving DecidableEq

/-- The first-byte bucket of the scanner: candidates whose byte pattern starts
with byte `b`. This is the content of `byte_to_leaks[b]` built by the fold of
src/src/main.rs lines 390-416 (run sequentially, which preserves candidate
order; candidates with an empty pattern have no first byte and enter no
bucket). -/
def leak_bucket (leaks : List PotentialLeak) (b : Nat) : List PotentialLeak :=
  leaks.filter (fun l => l.bytes.head? = some b)

/-- The `ConfirmedLeak` record emitted by the scanner at offset `i` for
candidate `l` (src/src/main.rs lines 435-444, with the record fields of
src/src/information_leak/confirmed_leak.rs). -/
def mk_confirmed_leak (l : PotentialLeak) (bin_file : String) (i : Nat) : ConfirmedLeak :=
  ⟨l.data_type, l.data, ⟨l.declaration_metadata, ⟨bin_file, i⟩⟩⟩

/-- Insertion into the result set keyed by `location`: the `BTreeSet` equality
of `ConfirmedLeak` (src/src/information_leak.rs lines 84-102) and of
`ConfirmedLeakWithUniqueLocation` (src/src/information_leak/confirmed_leak.rs);
an element equal to one already present is not inserted. -/
def insert_by_location (cl : ConfirmedLeak) (s : List ConfirmedLeak) : List ConfirmedLeak :=
  if ∃ x ∈ s, x.location = cl.location then s else s ++ [cl]

/-- Insertion into the result set keyed by `data`: the equality of
`ConfirmedLeakWithUniqueValue` (src/src/information_leak/confirmed_leak.rs
lines 88-106); the first element found with a given value is kept. -/
def insert_by_data (cl : ConfirmedLeak) (s : List ConfirmedLeak) : List ConfirmedLeak :=
  if ∃ x ∈ s, x.data = cl.data then s else s ++ [cl]

/-- The body of the scanner's candidate loop (src/src/main.rs lines 429-447):
check bounds, compare `bin[i .. i + bytes.len()]` byte-wise to the candidate's
bytes, and insert a `ConfirmedLeak` into the result set on a match. -/
def scan_step (insert : ConfirmedLeak → List ConfirmedLeak → List ConfirmedLeak)
    (bin : List Nat) (bin_file : String) (i : Nat)
    (acc2 : List ConfirmedLeak) (l : PotentialLeak) : List ConfirmedLeak :=
  if i + l.bytes.length ≤ bin.length then
    if (bin.drop i).take l.bytes.length = l.bytes then
      insert (mk_confirmed_leak l bin_file i) acc2
    else acc2
  else acc2

/-- One offset of the scan of `find_leaks_in_binary_file` (src/src/main.rs
lines 421-451): look the byte at offset `i` up in the first-byte index, then
run the candidate loop over its bucket. -/
def scan_offset (insert : ConfirmedLeak → List ConfirmedLeak → List ConfirmedLeak)
    (bin : List Nat) (bin_file : String) (leaks : List PotentialLeak) (i : Nat)
    (acc : List ConfirmedLeak) : List ConfirmedLeak :=
  match (bin.drop i).head? with
  | none => acc
  | some b => (leak_bucket leaks b).foldl (scan_step insert bin bin_file i) acc

/-- The scan of every offset `0 .. bin.len()`, sequentially (the rayon
map/reduce of src/src/main.rs computes the same set). The `insert` parameter is
the result-set equality in use. -/
def scan_confirmed_leaks (insert : ConfirmedLeak → List ConfirmedLeak → List ConfirmedLeak)
    (bin : List Nat) (leaks : List PotentialLeak) (bin_file : String) : List ConfirmedLeak :=
  (List.range bin.length).foldl (fun acc i => scan_offset insert bin bin_file leaks i acc) []

/-- `find_leaks_in_binary_file` from src/src/main.rs lines 377-458: the
binary content is `bin` (the file read into memory), the result an ordered set
of `ConfirmedLeak`s deduplicated by location. -/
def find_leaks_in_binary_file (bin : List Nat) (leaks : List PotentialLeak)
    (bin_file : String) : List ConfirmedLeak :=
  scan_confirmed_leaks insert_by_location bin leaks bin_file

/-- Modelled from the spec: the unique-by-value deduplication policy selected by
the `--ignore-multiple-locations` flag. The main-pipeline wiring that scans
into a `BTreeSet` of `ConfirmedLeakWithUniqueValue` is not under src/ (only the
wrapper type in src/src/information_leak/confirmed_leak.rs and the reporting
consumer are); per the spec, the same scan feeds an ordered set whose equality
is on `data` alone, keeping the first leak found for each value. -/
def find_leaks_unique_value (bin : List Nat) (leaks : List PotentialLeak)
    (bin_file : String) : List ConfirmedLeak :=
  scan_confirmed_leaks insert_by_data bin leaks bin_file

/-- The entity kinds the pipeline distinguishes; every other libclang kind is
`otherKind`. -/
inductive EntityKind where
  | stringLiteral : EntityKind
  | structDecl : EntityKind
  | classDecl : EntityKind
  | otherKind : EntityKind
deriving DecidableEq

/-- The queries the pipeline makes of a libclang `Entity`: its kind, its
display name (`get_display_name`), its file location when the entity has one
(`get_location` / `get_file_location`, collapsed into one `Option`), and
whether it sits in a system header. -/
structure EntityData where
  kind : EntityKind
  display_name : Option (List Char)
  location : Option SourceLocation
  in_system_header : Bool

/-- A parsed translation unit's AST: an entity and its children
(`get_children`). -/
inductive EntityTree where
  | node : EntityData → List EntityTree → EntityTree

/-- The entity carried by the root of a subtree. -/
def EntityTree.data : EntityTree → EntityData
  | .node d _ => d

mutual
/-- `gather_entities_by_kind_rec` from src/src/main.rs lines 168-201: collect
every entity of a kind in the filter list, depth-first, pruning children that
sit in system headers when requested. -/
def gather_entities_by_kind_rec (root_entity : EntityTree)
    (entity_kind_filter : List EntityKind) (ignore_system_headers : Bool)
    (current_depth : Nat) : List EntityData :=
  match root_entity with
  | .node d children =>
    (if entity_kind_filter.any (fun elem => elem = d.kind) then [d] else []) ++
      gather_children children entity_kind_filter ignore_system_headers current_depth

/-- The loop over `root_entity.get_children()` of `gather_entities_by_kind_rec`. -/
def gather_children (children : List EntityTree) (entity_kind_filter : List EntityKind)
    (ignore_system_headers : Bool) (current_depth : Nat) : List EntityData :=
  match children with
  | [] => []
  | child :: rest =>
    (if ignore_system_headers && child.data.in_system_header then []
     else gather_entities_by_kind_rec child entity_kind_filter ignore_system_headers
       (current_depth + 1)) ++
      gather_children rest entity_kind_filter ignore_system_headers current_depth
end

/-- `gather_entities_by_kind` from src/src/main.rs lines 160-166. -/
def gather_entities_by_kind (root_entity : EntityTree)
    (entity_kind_filter : List EntityKind) (ignore_system_headers : Bool) :
    List EntityData :=
  gather_entities_by_kind_rec root_entity entity_kind_filter ignore_system_headers 0

/-- Modelled from the spec: the newer main wiring (not under src/; the src/
main.rs at lines 308-312 still passes `[EntityKind::StringLiteral]` only)
derives the entity-kind filter set from the `--ignore-string-literals` and
`--ignore-struct-names` flags: string-literal kinds unless the former, struct
and class declarations unless the latter. -/
def entity_kind_filter_set (ignore_string_literals ignore_struct_names : Bool) :
    List EntityKind :=
  (if ignore_string_literals then [] else [.stringLiteral]) ++
    (if ignore_struct_names then [] else [.structDecl, .classDecl])

/-- `TryFrom<Entity> for PotentialLeak` from
src/src/information_leak/potential_leak.rs lines 24-76: string literals carry
the parsed payload as `data` and their decoded bytes; struct and class
declarations carry their display name and its UTF-8 bytes; entities without a
file location and unsupported kinds are errors. -/
def potential_leak_try_from (e : EntityData) (platform_windows : Bool) :
    RustOutcome PotentialLeak :=
  match e.location with
  | none => .err
  | some loc =>
    match e.kind with
    | .stringLiteral =>
      match e.display_name with
      | none => .err
      | some leaked_information =>
        match parse_string_literal leaked_information with
        | .panicked => .panicked
        | .err => .err
        | .ok (_, string_content) =>
          match string_literal_to_bytes leaked_information none platform_windows with
          | .panicked => .panicked
          | .err => .err
          | .ok bytes => .ok ⟨.stringLiteral, string_content, bytes, loc⟩
    | .structDecl =>
        .ok ⟨.structName, e.display_name.getD [], utf8Encode (e.display_name.getD []), loc⟩
    | .classDecl =>
        .ok ⟨.className, e.display_name.getD [], utf8Encode (e.display_name.getD []), loc⟩
    | .otherKind => .err

/-- The `filter_map` over gathered entities of
`extract_artifacts_from_source_files` (src/src/main.rs lines 314-332): convert
each entity, drop conversions that fail with a warning, and drop leaks whose
byte pattern is shorter than `minimum_leak_size`; a Rust panic inside the
conversion aborts the run. -/
def extract_literals_loop (platform_windows : Bool) (minimum_leak_size : Nat) :
    List EntityData → List PotentialLeak → RustOutcome (List PotentialLeak)
  | [], accum => .ok accum
  | literal :: rest, accum =>
    match potential_leak_try_from literal platform_windows with
    | .panicked => .panicked
    | .err => extract_literals_loop platform_windows minimum_leak_size rest accum
    | .ok potential_leak =>
      if minimum_leak_size ≤ potential_leak.bytes.length then
        extract_literals_loop platform_windows minimum_leak_size rest (accum ++ [potential_leak])
      else
        extract_literals_loop platform_windows minimum_leak_size rest accum

/-- The fold over compile commands of `extract_artifacts_from_source_files`. -/
def extract_tus_loop (platform_windows : Bool) (minimum_leak_size : Nat)
    (entity_kind_filter : List EntityKind) (ignore_system_headers : Bool) :
    List EntityTree → List PotentialLeak → RustOutcome (List PotentialLeak)
  | [], accum => .ok accum
  | tu :: rest, accum =>
    match extract_literals_loop platform_windows minimum_leak_size
        (gather_entities_by_kind tu entity_kind_filter ignore_system_headers) accum with
    | .panicked => .panicked
    | .err => .err
    | .ok accum2 =>
        extract_tus_loop platform_windows minimum_leak_size entity_kind_filter
          ignore_system_headers rest accum2

/-- `extract_artifacts_from_source_files` from src/src/main.rs lines 276-337,
with the Clang parse treated as the external collaborator it is: each compile
command is represented by the AST its translation unit parses to (a parse
failure aborts the run before any artifact is produced, so it contributes
nothing to the candidate set). -/
def extract_artifacts_from_source_files (tus : List EntityTree)
    (entity_kind_filter : List EntityKind) (ignore_system_headers : Bool)
    (minimum_leak_size : Nat) (platform_windows : Bool) :
    RustOutcome (List PotentialLeak) :=
  extract_tus_loop platform_windows minimum_leak_size entity_kind_filter
    ignore_system_headers tus []

/-- A compiled glob matcher of the `glob` crate (`glob::Pattern`), identified
by the pattern it was compiled from; compilation itself is external library
code and is passed as a function. -/
structure GlobPattern where
  source : String
deriving DecidableEq

/-- `glob::Pattern::default()`: the empty pattern, which matches only the empty
path. -/
def GlobPattern.defaultPattern : GlobPattern := ⟨""⟩

/-- The parsed `Suppressions` (src/src/suppressions.rs). -/
structure Suppressions where
  files : List GlobPattern
  artifacts : List String
deriving DecidableEq

/-- `parse_suppressions_file` from src/src/suppressions.rs lines 16-48, after
the external YAML parse: for every file pattern, compile it with
`glob::Pattern::new` (the external `compile` parameter); a pattern that fails
to compile is logged with a warning and replaced by `Pattern::default()`.
Artifacts are passed through unchanged. -/
def parse_suppressions_file (compile : String → Option GlobPattern)
    (files : List String) (artifacts : List String) : Suppressions :=
  ⟨files.map (fun pattern =>
      match compile pattern with
      | some p => p
      | none => GlobPattern.defaultPattern),
    artifacts⟩

/-- A concrete stand-in for `glob::Pattern::new` used on closed inputs:
`Pattern::new("[")` fails (an unclosed character class is a malformed glob),
while the other patterns exercised here compile. -/
def glob_compile_stub : String → Option GlobPattern :=
  fun s => if s = "[" then none else some ⟨s⟩

/-- A fuel-indexed evaluator for `escape_sequences_spec`: structurally
recursive in the fuel, hence evaluable by `decide` on closed inputs; it agrees
with `escape_sequences_spec` whenever the fuel covers the input's length
(`specFuel_eq`). -/
def specFuel : Nat → List Char → Option (List Char)
  | _, [] => some []
  | 0, _ :: _ => none
  | n + 1, c :: tl =>
    if c = '\\' then
      match tl with
      | [] => none
      | e :: tl2 =>
        Option.elim (simple_escape_char e)
          (if is_digit_8 e then
            (if octal_list_val (e :: tl2.take (octal_extra tl2)) ≤ 255 then
              (specFuel n (tl2.drop (octal_extra tl2))).map
                (Char.ofNat (octal_list_val (e :: tl2.take (octal_extra tl2))) :: ·)
             else none)
           else (specFuel n tl2).map (e :: ·))
          (fun r => (specFuel n tl2).map (r :: ·))
    else (specFuel n tl).map (c :: ·)

/-- The raw payload `\0\1\2\3\4\5\6\7\10\100` of the spec's octal test vector,
as the character sequence handed to the escape decoder. -/
def octal_vec : List Char :=
  ['\\', '0', '\\', '1', '\\', '2', '\\', '3', '\\', '4', '\\', '5', '\\', '6',
   '\\', '7', '\\', '1', '0', '\\', '1', '0', '0']

/-- The soundness condition claimed for each reported leak: some candidate has
the reported data, the reported source origin, and bytes occurring in bounds at
the reported offset. -/
def scanner_sound_at (bin : List Nat) (leaks : List PotentialLeak) (bin_file : String)
    (cl : ConfirmedLeak) : Prop :=
  ∃ c ∈ leaks, cl.data_type = c.data_type ∧ cl.data = c.data ∧
    cl.location.source = c.declaration_metadata ∧ cl.location.binary.file = bin_file ∧
    cl.location.binary.offset + c.bytes.length ≤ bin.length ∧
    (bin.drop cl.location.binary.offset).take c.bytes.length = c.bytes

/-- A binary image containing the bytes of `abcd` at the three offsets 0, 4
and 8. -/
def demo_bin : List Nat := [97, 98, 99, 100, 97, 98, 99, 100, 97, 98, 99, 100]

/-- The literal value `abcd` declared at line 1 of the demo source. -/
def demo_leak1 : PotentialLeak :=
  ⟨.stringLiteral, ['a', 'b', 'c', 'd'], [97, 98, 99, 100], ⟨"main.cc", 1⟩⟩

/-- The same literal value `abcd` declared again at line 2 of the demo source. -/
def demo_leak2 : PotentialLeak :=
  ⟨.stringLiteral, ['a', 'b', 'c', 'd'], [97, 98, 99, 100], ⟨"main.cc", 2⟩⟩

/-- The entity of a declaration `struct MyStruct` at line 3 of the demo
source. -/
def demo_struct_entity : EntityData :=
  ⟨.structDecl, some ['M', 'y', 'S', 't', 'r', 'u', 'c', 't'],
    some ⟨"demo.cc", 3⟩, false⟩

/-- The entity of a declaration `class MyClass` at line 4 of the demo source. -/
def demo_class_entity : EntityData :=
  ⟨.classDecl, some ['M', 'y', 'C', 'l', 'a', 's', 's'], some ⟨"demo.cc", 4⟩, false⟩

/-- The entity of a declaration `struct ab` at line 5 of the demo source,
whose two-byte name is below the default minimum leak size. -/
def demo_short_entity : EntityData :=
  ⟨.structDecl, some ['a', 'b'], some ⟨"demo.cc", 5⟩, false⟩

/-- The translation unit of the demo source: a root with the three
declarations as children. -/
def demo_tu : EntityTree :=
  .node ⟨.otherKind, none, none, false⟩
    [.node demo_struct_entity [], .node demo_class_entity [], .node demo_short_entity []]

/-! ### Generic fold lemmas -/

theorem foldl_invariant {α β : Type _} (P : β → Prop) (f : β → α → β) :
    ∀ (l : List α) (init : β), P init → (∀ acc x, x ∈ l → P acc → P (f acc x)) →
      P (l.foldl f init)
  | [], _, h0, _ => h0
  | x :: l, init, h0, hstep => by
      simp only [List.foldl_cons]
      exact foldl_invariant P f l (f init x) (hstep init x (by simp) h0)
        (fun acc y hy hacc => hstep acc y (by simp [hy]) hacc)

theorem foldl_reaches {α β : Type _} (P : β → Prop) (f : β → α → β) (l : List α) (init : β)
    (x : α) (hx : x ∈ l) (hstep : ∀ acc y, y ∈ l → P acc → P (f acc y))
    (hx2 : ∀ acc, P (f acc x)) : P (l.foldl f init) := by
  obtain ⟨s, t, rfl⟩ := List.append_of_mem hx
  rw [List.foldl_append, List.foldl_cons]
  exact foldl_invariant P f t _ (hx2 _)
    (fun acc y hy hacc => hstep acc y (by simp [hy]) hacc)

/-! ### Result-set insertion lemmas -/

theorem mem_insert_by_location {cl x : ConfirmedLeak} {s : List ConfirmedLeak} (h : x ∈ s) :
    x ∈ insert_by_location cl s := by
  unfold insert_by_location; split <;> simp [h]

theorem insert_by_location_cases {cl y : ConfirmedLeak} {s : List ConfirmedLeak}
    (h : y ∈ insert_by_location cl s) : y ∈ s ∨ y = cl := by
  unfold insert_by_location at h
  split at h
  · exact Or.inl h
  · rcases List.mem_append.mp h with h2 | h2
    · exact Or.inl h2
    · exact Or.inr (by simpa using h2)

theorem insert_by_location_target (cl : ConfirmedLeak) (s : List ConfirmedLeak) :
    ∃ z ∈ insert_by_location cl s, z.location = cl.location := by
  unfold insert_by_location
  split
  · next h => exact h
  · exact ⟨cl, by simp, rfl⟩

theorem mem_insert_by_data {cl x : ConfirmedLeak} {s : List ConfirmedLeak} (h : x ∈ s) :
    x ∈ insert_by_data cl s := by
  unfold insert_by_data; split <;> simp [h]

theorem insert_by_data_target (cl : ConfirmedLeak) (s : List ConfirmedLeak) :
    ∃ z ∈ insert_by_data cl s, z.data = cl.data := by
  unfold insert_by_data
  split
  · next h => exact h
  · exact ⟨cl, by simp, rfl⟩

theorem insert_by_data_pairwise {cl : ConfirmedLeak} {s : List ConfirmedLeak}
    (h : s.Pairwise (fun a b => a.data ≠ b.data)) :
    (insert_by_data cl s).Pairwise (fun a b => a.data ≠ b.data) := by
  unfold insert_by_data
  split
  · exact h
  · next hno =>
      refine List.pairwise_append.mpr ⟨h, List.pairwise_singleton _ _, ?_⟩
      intro a ha b hb
      simp only [List.mem_singleton] at hb
      subst hb
      exact fun he => hno ⟨a, ha, he⟩

/-! ### Scanner lemmas -/

theorem scan_step_cases (insert : ConfirmedLeak → List ConfirmedLeak → List ConfirmedLeak)
    (bin : List Nat) (bin_file : String) (i : Nat) (acc2 : List ConfirmedLeak)
    (l : PotentialLeak) :
    scan_step insert bin bin_file i acc2 l = acc2 ∨
      (scan_step insert bin bin_file i acc2 l = insert (mk_confirmed_leak l bin_file i) acc2 ∧
        i + l.bytes.length ≤ bin.length ∧ (bin.drop i).take l.bytes.length = l.bytes) := by
  unfold scan_step
  split
  · next hbound =>
      split
      · next hslice => exact Or.inr ⟨rfl, hbound, hslice⟩
      · exact Or.inl rfl
  · exact Or.inl rfl

theorem scan_step_hit (insert : ConfirmedLeak → List ConfirmedLeak → List ConfirmedLeak)
    (bin : List Nat) (bin_file : String) (i : Nat) (acc2 : List ConfirmedLeak)
    (l : PotentialLeak) (hbound : i + l.bytes.length ≤ bin.length)
    (hslice : (bin.drop i).take l.bytes.length = l.bytes) :
    scan_step insert bin bin_file i acc2 l = insert (mk_confirmed_leak l bin_file i) acc2 := by
  unfold scan_step
  rw [if_pos hbound, if_pos hslice]

theorem scan_offset_mono (insert : ConfirmedLeak → List ConfirmedLeak → List ConfirmedLeak)
    (hins : ∀ cl x s, x ∈ s → x ∈ insert cl s)
    (bin : List Nat) (bin_file : String) (leaks : List PotentialLeak) (i : Nat)
    (acc : List ConfirmedLeak) {x : ConfirmedLeak} (hx : x ∈ acc) :
    x ∈ scan_offset insert bin bin_file leaks i acc := by
  unfold scan_offset
  match h : (bin.drop i).head? with
  | none => exact hx
  | some b =>
    refine foldl_invariant (fun acc2 => x ∈ acc2) _ _ acc hx ?_
    intro acc2 l _ hacc
    rcases scan_step_cases insert bin bin_file i acc2 l with he | ⟨he, _, _⟩ <;> rw [he]
    · exact hacc
    · exact hins _ _ _ hacc

theorem head_eq_of_take_eq {bin : List Nat} {i : Nat} {b : Nat} {bs : List Nat}
    (h : (bin.drop i).take (b :: bs).length = b :: bs) : (bin.drop i).head? = some b := by
  match hd : bin.drop i with
  | [] => rw [hd] at h; simp at h
  | y :: rest =>
      rw [hd] at h
      simp only [List.length_cons, List.take_succ_cons, List.cons.injEq] at h
      simp [h.1]

theorem scan_offset_hits (insert : ConfirmedLeak → List ConfirmedLeak → List ConfirmedLeak)
    (hins : ∀ cl x s, x ∈ s → x ∈ insert cl s) (T : ConfirmedLeak → Prop)
    (bin : List Nat) (bin_file : String) (leaks : List PotentialLeak)
    (c : PotentialLeak) (hc : c ∈ leaks) (hne : c.bytes ≠ []) (i : Nat)
    (hbound : i + c.bytes.length ≤ bin.length)
    (hslice : (bin.drop i).take c.bytes.length = c.bytes)
    (htgt : ∀ s, ∃ z ∈ insert (mk_confirmed_leak c bin_file i) s, T z)
    (acc : List ConfirmedLeak) :
    ∃ z ∈ scan_offset insert bin bin_file leaks i acc, T z := by
  match hb : c.bytes, hne with
  | b :: bs, _ =>
    have hhead : (bin.drop i).head? = some b := head_eq_of_take_eq (by rw [← hb]; exact hslice)
    have hbucket : c ∈ leak_bucket leaks b := by
      unfold leak_bucket
      refine List.mem_filter.mpr ⟨hc, ?_⟩
      simp [hb]
    unfold scan_offset
    rw [hhead]
    refine foldl_reaches (fun acc2 => ∃ z ∈ acc2, T z) _ _ acc c hbucket ?_ ?_
    · intro acc2 l _ hacc
      obtain ⟨z, hz, hzl⟩ := hacc
      rcases scan_step_cases insert bin bin_file i acc2 l with he | ⟨he, _, _⟩ <;> rw [he]
      · exact ⟨z, hz, hzl⟩
      · exact ⟨z, hins _ _ _ hz, hzl⟩
    · intro acc2
      rw [scan_step_hit insert bin bin_file i acc2 c hbound hslice]
      exact htgt acc2

theorem scan_sound (bin : List Nat) (leaks : List PotentialLeak) (bin_file : String) :
    ∀ cl ∈ find_leaks_in_binary_file bin leaks bin_file,
      scanner_sound_at bin leaks bin_file cl := by
  unfold find_leaks_in_binary_file scan_confirmed_leaks
  refine foldl_invariant (fun acc => ∀ cl ∈ acc, scanner_sound_at bin leaks bin_file cl)
    _ _ _ (by simp) ?_
  intro acc i _ hacc
  unfold scan_offset
  match hd : (bin.drop i).head? with
  | none => exact hacc
  | some b =>
    refine foldl_invariant
      (fun acc2 => ∀ cl ∈ acc2, scanner_sound_at bin leaks bin_file cl) _
      (leak_bucket leaks b) acc hacc ?_
    intro acc2 l hl hacc2 cl hcl
    rcases scan_step_cases insert_by_location bin bin_file i acc2 l with he | ⟨he, hbound, hslice⟩
    · rw [he] at hcl
      exact hacc2 cl hcl
    · rw [he] at hcl
      rcases insert_by_location_cases hcl with h | h
      · exact hacc2 cl h
      · subst h
        exact ⟨l, (List.mem_filter.mp hl).1, rfl, rfl, rfl, rfl, hbound, hslice⟩

theorem scan_complete (insert : ConfirmedLeak → List ConfirmedLeak → List ConfirmedLeak)
    (hins : ∀ cl x s, x ∈ s → x ∈ insert cl s) (T : ConfirmedLeak → Prop)
    (bin : List Nat) (leaks : List PotentialLeak) (bin_file : String)
    (c : PotentialLeak) (hc : c ∈ leaks) (hne : c.bytes ≠ []) (i : Nat)
    (hbound : i + c.bytes.length ≤ bin.length)
    (hslice : (bin.drop i).take c.bytes.length = c.bytes)
    (htgt : ∀ s, ∃ z ∈ insert (mk_confirmed_leak c bin_file i) s, T z) :
    ∃ z ∈ scan_confirmed_leaks insert bin leaks bin_file, T z := by
  have hi : i ∈ List.range bin.length := by
    refine List.mem_range.mpr ?_
    have : 1 ≤ c.bytes.length := List.length_pos.mpr hne
    omega
  unfold scan_confirmed_leaks
  refine foldl_reaches (fun (acc : List ConfirmedLeak) => ∃ z ∈ acc, T z)
    (fun acc j => scan_offset insert bin bin_file leaks j acc) _ [] i hi ?_ ?_
  · intro acc y _ hacc
    obtain ⟨z, hz, hzl⟩ := hacc
    exact ⟨z, scan_offset_mono insert hins bin bin_file leaks y acc hz, hzl⟩
  · intro acc
    exact scan_offset_hits insert hins T bin bin_file leaks c hc hne i hbound hslice htgt acc

theorem scan_pairwise_data (bin : List Nat) (leaks : List PotentialLeak) (bin_file : String) :
    (find_leaks_unique_value bin leaks bin_file).Pairwise (fun a b => a.data ≠ b.data) := by
  unfold find_leaks_unique_value scan_confirmed_leaks
  refine foldl_invariant
    (fun (acc : List ConfirmedLeak) => acc.Pairwise (fun a b => a.data ≠ b.data))
    (fun acc i => scan_offset insert_by_data bin bin_file leaks i acc)
    (List.range bin.length) [] (by simp) ?_
  intro acc i _ hacc
  dsimp only
  unfold scan_offset
  match hd : (bin.drop i).head? with
  | none => exact hacc
  | some b =>
    refine foldl_invariant
      (fun (acc2 : List ConfirmedLeak) => acc2.Pairwise (fun a b => a.data ≠ b.data)) _
      (leak_bucket leaks b) acc hacc ?_
    intro acc2 l _ hacc2
    rcases scan_step_cases insert_by_data bin bin_file i acc2 l with he | ⟨he, _, _⟩ <;> rw [he]
    · exact hacc2
    · exact insert_by_data_pairwise hacc2

/-- C1: the claimed completeness fails for a candidate whose byte pattern is
empty. In the one-byte binary `[0]`, the empty pattern occurs in bounds at
offset 0, yet `find_leaks_in_binary_file` returns no leak at all: the
first-byte index of src/src/main.rs line 395 only buckets candidates having a
first byte, so an empty-pattern candidate is never matched. -/
theorem scanner_exactness_counterexample :
    (0 + ([] : List Nat).length ≤ ([0] : List Nat).length ∧
      (([0] : List Nat).drop 0).take ([] : List Nat).length = ([] : List Nat)) ∧
    find_leaks_in_binary_file [0] [⟨.stringLiteral, ['e'], [], ⟨"e.cc", 1⟩⟩] "a.out" = [] := by
  decide

/-- C1 (amended): `find_leaks_in_binary_file` is sound — every reported leak
carries the data, type and origin of some candidate whose bytes occur in
bounds at the reported offset — and complete for every candidate with a
NONEMPTY byte pattern: wherever such a candidate's bytes occur in bounds in
the binary, the result contains a leak with that candidate's origin and that
offset (up to the result set's equality on location). Candidates with an empty
byte pattern are skipped by the first-byte index. -/
theorem scanner_exactness (bin : List Nat) (leaks : List PotentialLeak) (bin_file : String) :
    (∀ cl ∈ find_leaks_in_binary_file bin leaks bin_file,
      ∃ c ∈ leaks, cl.data_type = c.data_type ∧ cl.data = c.data ∧
        cl.location.source = c.declaration_metadata ∧ cl.location.binary.file = bin_file ∧
        cl.location.binary.offset + c.bytes.length ≤ bin.length ∧
        (bin.drop cl.location.binary.offset).take c.bytes.length = c.bytes) ∧
    (∀ c ∈ leaks, c.bytes ≠ [] → ∀ i, i + c.bytes.length ≤ bin.length →
      (bin.drop i).take c.bytes.length = c.bytes →
      ∃ cl ∈ find_leaks_in_binary_file bin leaks bin_file,
        cl.location = ⟨c.declaration_metadata, ⟨bin_file, i⟩⟩) := by
  constructor
  · exact fun cl hcl => scan_sound bin leaks bin_file cl hcl
  · intro c hc hne i hbound hslice
    exact scan_complete insert_by_location (fun _ _ _ h => mem_insert_by_location h)
      (fun z => z.location = ⟨c.declaration_metadata, ⟨bin_file, i⟩⟩)
      bin leaks bin_file c hc hne i hbound hslice
      (fun s => insert_by_location_target (mk_confirmed_leak c bin_file i) s)

/-- Witness for C1: in the binary `[1, 2, 3]` the candidate pattern `[2, 3]`
occurs at offset 1 and the scanner reports it there. -/
theorem scanner_exactness_witness :
    ∃ cl ∈ find_leaks_in_binary_file [1, 2, 3]
        [⟨.stringLiteral, ['x'], [2, 3], ⟨"w.cc", 7⟩⟩] "a.out",
      cl.location = ⟨⟨"w.cc", 7⟩, ⟨"a.out", 1⟩⟩ :=
  (scanner_exactness [1, 2, 3] [⟨.stringLiteral, ['x'], [2, 3], ⟨"w.cc", 7⟩⟩] "a.out").2
    ⟨.stringLiteral, ['x'], [2, 3], ⟨"w.cc", 7⟩⟩ (by simp) (by decide) 1 (by decide) (by decide)

/-- C7: under the unique-by-value policy each leaked value appears exactly once
(the result is pairwise distinct on `data`, each element carrying a single
location), every matching candidate value is represented, and on the demo
input — the same value declared at two source lines and occurring at three
binary offsets — the default location-keyed policy reports 6 leaks while the
unique-by-value policy reports exactly 1. -/
theorem unique_value_deduplication :
    (∀ (bin : List Nat) (leaks : List PotentialLeak) (bin_file : String),
      (find_leaks_unique_value bin leaks bin_file).Pairwise (fun a b => a.data ≠ b.data)) ∧
    (∀ (bin : List Nat) (leaks : List PotentialLeak) (bin_file : String)
        (c : PotentialLeak), c ∈ leaks → c.bytes ≠ [] →
      ∀ i, i + c.bytes.length ≤ bin.length → (bin.drop i).take c.bytes.length = c.bytes →
      ∃ cl ∈ find_leaks_unique_value bin leaks bin_file, cl.data = c.data) ∧
    (find_leaks_unique_value demo_bin [demo_leak1, demo_leak2] "a.out").length = 1 ∧
    (find_leaks_in_binary_file demo_bin [demo_leak1, demo_leak2] "a.out").length = 6 := by
  refine ⟨scan_pairwise_data, ?_, by decide, by decide⟩
  intro bin leaks bin_file c hc hne i hbound hslice
  exact scan_complete insert_by_data (fun _ _ _ h => mem_insert_by_data h)
    (fun z => z.data = c.data) bin leaks bin_file c hc hne i hbound hslice
    (fun s => insert_by_data_target (mk_confirmed_leak c bin_file i) s)

/-- Witness for C7: the demo value is reported (once) for the demo binary. -/
theorem unique_value_deduplication_witness :
    ∃ cl ∈ find_leaks_unique_value demo_bin [demo_leak1, demo_leak2] "a.out",
      cl.data = demo_leak1.data :=
  unique_value_deduplication.2.1 demo_bin [demo_leak1, demo_leak2] "a.out" demo_leak1
    (by simp) (by decide) 0 (by decide) (by decide)

/-- C3: the empty string literal is a decoding error for both
`parse_string_literal` and `string_literal_to_bytes`
(src/src/information_leak/potential_leak.rs lines 203-213), on either
platform default; no empty byte vector is produced. -/
theorem empty_literal_is_error :
    parse_string_literal [] = .err ∧
    string_literal_to_bytes [] none true = .err ∧
    string_literal_to_bytes [] none false = .err := by
  decide

/-- C9 counterexample: one malformed pattern (`[`, an unclosed character
class, which `glob::Pattern::new` rejects) is NOT dropped from the compiled
list — src/src/suppressions.rs lines 36-43 replace it by the default (empty)
pattern, so `files` has one entry where the claim requires none. -/
theorem suppressions_malformed_counterexample :
    glob_compile_stub "[" = none ∧
    (parse_suppressions_file glob_compile_stub ["["] []).files = [GlobPattern.defaultPattern] ∧
    (parse_suppressions_file glob_compile_stub ["["] []).files ≠ [] := by
  decide

/-- C9 (amended): `parse_suppressions_file` produces exactly one matcher per
input file pattern — each well-formed pattern contributes its compiled
matcher, and each malformed pattern is replaced (with a warning) by the
default empty pattern, which matches only the empty path, rather than being
dropped; artifacts pass through unchanged. -/
theorem suppressions_glob_compilation (compile : String → Option GlobPattern)
    (files artifacts : List String) :
    (parse_suppressions_file compile files artifacts).files.length = files.length ∧
    (∀ q ∈ (parse_suppressions_file compile files artifacts).files,
      q = GlobPattern.defaultPattern ∨ ∃ p ∈ files, compile p = some q) ∧
    (∀ p ∈ files, ∀ q, compile p = some q →
      q ∈ (parse_suppressions_file compile files artifacts).files) ∧
    (parse_suppressions_file compile files artifacts).artifacts = artifacts := by
  refine ⟨by simp [parse_suppressions_file], ?_, ?_, rfl⟩
  · intro q hq
    simp only [parse_suppressions_file, List.mem_map] at hq
    obtain ⟨p, hp, he⟩ := hq
    match hcp : compile p with
    | some r =>
        rw [hcp] at he
        simp only [] at he
        exact Or.inr ⟨p, hp, by rw [hcp, he]⟩
    | none =>
        rw [hcp] at he
        simp only [] at he
        exact Or.inl he.symm
  · intro p hp q hq
    simp only [parse_suppressions_file, List.mem_map]
    exact ⟨p, hp, by rw [hq]⟩

/-- Witness for C9: a well-formed pattern of a concrete suppressions file is
present, compiled, in the resulting matcher list. -/
theorem suppressions_glob_compilation_witness :
    (⟨"*.cc"⟩ : GlobPattern) ∈
      (parse_suppressions_file glob_compile_stub ["*.cc", "["] ["x"]).files :=
  (suppressions_glob_compilation glob_compile_stub ["*.cc", "["] ["x"]).2.2.1 "*.cc"
    (by simp) ⟨"*.cc"⟩ (by decide)

/-! ### Byte-slicing lemmas -/

theorem charUtf8Size_pos (c : Char) : 1 ≤ charUtf8Size c := by
  unfold charUtf8Size
  repeat' split
  all_goals omega

theorem charUtf8Size_ascii {c : Char} (h : c.toNat < 128) : charUtf8Size c = 1 := by
  unfold charUtf8Size
  rw [if_pos]
  exact h

theorem utf8ByteLen_nil : utf8ByteLen [] = 0 := rfl

theorem utf8ByteLen_cons (c : Char) (s : List Char) :
    utf8ByteLen (c :: s) = charUtf8Size c + utf8ByteLen s := by
  simp [utf8ByteLen]

theorem takeBytes_cons_ne {k : Nat} (hk : k ≠ 0) (c : Char) (s : List Char) :
    takeBytes (c :: s) k =
      if charUtf8Size c ≤ k then (takeBytes s (k - charUtf8Size c)).map (c :: ·) else none := by
  obtain ⟨k2, rfl⟩ : ∃ k2, k = k2 + 1 := ⟨k - 1, by omega⟩
  rfl

theorem dropBytes_cons_ne {k : Nat} (hk : k ≠ 0) (c : Char) (s : List Char) :
    dropBytes (c :: s) k =
      if charUtf8Size c ≤ k then dropBytes s (k - charUtf8Size c) else none := by
  obtain ⟨k2, rfl⟩ : ∃ k2, k = k2 + 1 := ⟨k - 1, by omega⟩
  rfl

theorem takeBytes_ascii :
    ∀ (s : List Char) (k : Nat), (∀ c ∈ s, c.toNat < 128) → k ≤ s.length →
      takeBytes s k = some (s.take k)
  | _, 0, _, _ => by simp [takeBytes]
  | [], k + 1, _, hk => by simp at hk
  | c :: rest, k + 1, hA, hk => by
      have hc : charUtf8Size c = 1 := charUtf8Size_ascii (hA c (by simp))
      rw [takeBytes_cons_ne (by omega), hc, if_pos (by omega)]
      rw [takeBytes_ascii rest (k + 1 - 1) (fun d hd => hA d (by simp [hd])) (by simp at hk; omega)]
      simp

theorem dropBytes_ascii :
    ∀ (s : List Char) (k : Nat), (∀ c ∈ s, c.toNat < 128) → k ≤ s.length →
      dropBytes s k = some (s.drop k)
  | _, 0, _, _ => by simp [dropBytes]
  | [], k + 1, _, hk => by simp at hk
  | c :: rest, k + 1, hA, hk => by
      have hc : charUtf8Size c = 1 := charUtf8Size_ascii (hA c (by simp))
      rw [dropBytes_cons_ne (by omega), hc, if_pos (by omega)]
      rw [dropBytes_ascii rest (k + 1 - 1) (fun d hd => hA d (by simp [hd])) (by simp at hk; omega)]
      simp

theorem sliceBytes_ascii (s : List Char) (a b : Nat) (hA : ∀ c ∈ s, c.toNat < 128)
    (hab : a ≤ b) (hb : b ≤ s.length) :
    sliceBytes s a b = some ((s.drop a).take (b - a)) := by
  unfold sliceBytes
  rw [if_pos hab, dropBytes_ascii s a hA (by omega)]
  simp only [Option.some_bind]
  exact takeBytes_ascii (s.drop a) (b - a)
    (fun c hc => hA c (List.mem_of_mem_drop hc)) (by simp; omega)

theorem dropBytes_cons_one {c : Char} (hc : c.toNat < 128) (s : List Char) (k : Nat) :
    dropBytes (c :: s) (k + 1) = dropBytes s k := by
  rw [dropBytes_cons_ne (by omega), charUtf8Size_ascii hc, if_pos (by omega)]
  congr 1

theorem takeBytes_append : ∀ (p t : List Char), takeBytes (p ++ t) (utf8ByteLen p) = some p
  | [], t => by simp [takeBytes, utf8ByteLen]
  | c :: p, t => by
      have hpos := charUtf8Size_pos c
      rw [utf8ByteLen_cons, List.cons_append, takeBytes_cons_ne (by omega), if_pos (by omega)]
      have h2 : charUtf8Size c + utf8ByteLen p - charUtf8Size c = utf8ByteLen p := by omega
      rw [h2, takeBytes_append p t]
      rfl

/-! ### Escape-decoder refinement lemmas -/

theorem ofOption_map_cons (o : Option (List Char)) (x : Char) (pre : List Char) :
    RustOutcome.ofOption ((o.map (x :: ·)).map (fun t => pre ++ t)) =
      RustOutcome.ofOption (o.map (fun t => (pre ++ [x]) ++ t)) := by
  cases o <;> simp [RustOutcome.ofOption]

theorem drop_cons_succ {full rest' : List Char} {pos : Nat} {c : Char}
    (h : full.drop pos = c :: rest') : full.drop (pos + 1) = rest' := by
  rw [← List.tail_drop, h, List.tail_cons]

theorem lt_length_of_drop_cons {full rest' : List Char} {pos : Nat} {c : Char}
    (h : full.drop pos = c :: rest') : pos < full.length := by
  have h2 := congrArg List.length h
  simp only [List.length_drop, List.length_cons] at h2
  omega

theorem getElem?_of_drop_cons {full rest' : List Char} {pos : Nat} {c : Char}
    (h : full.drop pos = c :: rest') : full[pos]? = some c := by
  have h2 := List.getElem?_drop full pos 0
  rw [h] at h2
  simpa using h2.symm

theorem take_succ_of_drop_cons {full rest' : List Char} {pos : Nat} {c : Char}
    (h : full.drop pos = c :: rest') : full.take (pos + 1) = full.take pos ++ [c] := by
  rw [List.take_succ, getElem?_of_drop_cons h]
  rfl

theorem mem_of_drop_cons {full rest' : List Char} {pos : Nat} {c : Char}
    (h : full.drop pos = c :: rest') : c ∈ full :=
  List.mem_of_mem_drop (h ▸ List.mem_cons_self c rest')

theorem is_digit_8_ne_plus {c : Char} (h : is_digit_8 c = true) : c ≠ '+' := by
  intro he
  subst he
  simp [is_digit_8] at h

theorem from_str_radix_8_digits (ds : List Char) (hne : ds ≠ [])
    (hall : ds.all is_digit_8 = true) :
    from_str_radix_8 ds =
      if octal_list_val ds ≤ 255 then some (octal_list_val ds) else none := by
  unfold from_str_radix_8
  have hhead : ¬(ds.head? = some '+') := by
    cases ds with
    | nil => simp at hne
    | cons d tl =>
        simp only [List.head?_cons, Option.some.injEq]
        have hd : is_digit_8 d = true := by
          have := List.all_eq_true.mp hall d (by simp)
          simpa using this
        exact is_digit_8_ne_plus hd
  rw [if_neg hhead, if_neg (by simpa using hne), if_pos hall]

theorem octal_list_val_single {c : Char} (h : is_digit_8 c = true) :
    octal_list_val [c] ≤ 255 := by
  simp only [is_digit_8, Bool.and_eq_true, decide_eq_true_eq] at h
  simp only [octal_list_val, List.foldl_cons, List.foldl_nil]
  omega

theorem octal_extra_le (tl : List Char) : octal_extra tl ≤ tl.length := by
  cases tl with
  | nil => simp [octal_extra]
  | cons c2 r =>
      cases r with
      | nil =>
          simp only [octal_extra, List.length_cons]
          split <;> simp
      | cons c3 r2 =>
          simp only [octal_extra, List.length_cons]
          split
          · split <;> omega
          · omega

theorem octal_take_all (first : Char) (rest2 : List Char) (hdig : is_digit_8 first = true) :
    (first :: rest2.take (octal_extra rest2)).all is_digit_8 = true := by
  cases rest2 with
  | nil => simp [octal_extra, hdig]
  | cons c2 rest3 =>
      cases hd2 : is_digit_8 c2 with
      | false => simp [octal_extra, hd2, hdig]
      | true =>
          cases rest3 with
          | nil => simp [octal_extra, hd2, hdig]
          | cons c3 rest4 =>
              cases hd3 : is_digit_8 c3 with
              | false => simp [octal_extra, hd2, hd3, hdig]
              | true => simp [octal_extra, hd2, hd3, hdig]

set_option maxHeartbeats 2000000 in
theorem pesLoop_eq_spec (full : List Char) (hA : ∀ c ∈ full, c.toNat < 128) :
    ∀ (rest : List Char) (pos skipUntil : Nat) (owned : Option (List Char)),
      rest = full.drop pos → (pos < skipUntil → owned ≠ none) →
      pesLoop full rest pos skipUntil owned =
        RustOutcome.ofOption ((escape_sequences_spec (full.drop (max pos skipUntil))).map
          (fun t => owned.getD (full.take pos) ++ t)) := by
  intro rest
  induction rest with
  | nil =>
      intro pos skipUntil owned hrest _
      have hlen : full.length ≤ pos := by
        have h2 := congrArg List.length hrest.symm
        simp only [List.length_nil, List.length_drop] at h2
        omega
      have hd2 : full.drop (max pos skipUntil) = [] :=
        List.drop_eq_nil_of_le (le_trans hlen (Nat.le_max_left pos skipUntil))
      have htake : full.take pos = full := List.take_of_length_le hlen
      rw [hd2, show pesLoop full [] pos skipUntil owned = .ok (owned.getD full) from by
        rw [pesLoop]]
      cases owned <;> simp [escape_sequences_spec, RustOutcome.ofOption, htake]
  | cons c rest' ih =>
      intro pos skipUntil owned hrest hown
      have hdrop : full.drop pos = c :: rest' := hrest.symm
      have hpos : pos < full.length := lt_length_of_drop_cons hdrop
      have hrest1 : full.drop (pos + 1) = rest' := drop_cons_succ hdrop
      by_cases hskip : pos < skipUntil
      · obtain ⟨o, rfl⟩ : ∃ o, owned = some o := by
          cases owned with
          | none => exact absurd rfl (hown hskip)
          | some o => exact ⟨o, rfl⟩
        rw [pesLoop]
        simp only [if_pos hskip]
        rw [ih (pos + 1) skipUntil (some o) hrest1.symm (fun _ => by simp),
          Nat.max_eq_right (Nat.le_of_lt hskip), Nat.max_eq_right hskip]
        rfl
      · have hle : skipUntil ≤ pos := Nat.le_of_not_lt hskip
        have hmax : max pos skipUntil = pos := Nat.max_eq_left hle
        rw [hmax, hdrop]
        by_cases hbs : c = '\\'
        · subst hbs
          rw [pesLoop, if_neg hskip, if_pos (show ('\\' : Char) = '\\' from rfl)]
          have hbval : owned.elim (takeBytes full pos) some =
              some (owned.getD (full.take pos)) := by
            cases owned with
            | some o => rfl
            | none =>
                simp only [Option.elim_none, Option.getD_none]
                exact takeBytes_ascii full pos hA (Nat.le_of_lt hpos)
          rw [hbval]
          simp only [Option.elim]
          cases rest' with
          | nil => simp [pesEscape, escape_sequences_spec, spec_escape, RustOutcome.ofOption]
          | cons first rest2 =>
              have hrest2 : full.drop (pos + 2) = rest2 := drop_cons_succ hrest1
              have hfirstA : first.toNat < 128 := hA first (mem_of_drop_cons hrest1)
              rw [pesEscape]
              cases hsimple : simple_escape_char first with
              | some e =>
                  simp only [Option.elim]
                  rw [ih (pos + 1) (pos + 2) (some (owned.getD (full.take pos) ++ [e]))
                      hrest1.symm (fun _ => by simp),
                    Nat.max_eq_right (by omega), hrest2,
                    show escape_sequences_spec ('\\' :: first :: rest2) =
                        (escape_sequences_spec rest2).map (e :: ·) from by
                      simp [escape_sequences_spec, spec_escape, Option.elim, hsimple],
                    ofOption_map_cons]
                  rfl
              | none =>
                  simp only [Option.elim]
                  cases hdig : is_digit_8 first with
                  | false =>
                      rw [if_neg (by simp [hdig])]
                      rw [ih (pos + 1) (pos + 2) (some (owned.getD (full.take pos) ++ [first]))
                          hrest1.symm (fun _ => by simp),
                        Nat.max_eq_right (by omega), hrest2,
                        show escape_sequences_spec ('\\' :: first :: rest2) =
                            (escape_sequences_spec rest2).map (first :: ·) from by
                          simp [escape_sequences_spec, spec_escape, Option.elim, hsimple, hdig],
                        ofOption_map_cons]
                      rfl
                  | true =>
                      rw [if_pos (by simp [hdig])]
                      have hlen2 : full.length = pos + 2 + rest2.length := by
                        have h2 := congrArg List.length hrest2
                        simp only [List.length_drop] at h2
                        have h3 := lt_length_of_drop_cons hrest1
                        omega
                      have hextra_le : octal_extra rest2 ≤ rest2.length :=
                        octal_extra_le rest2
                      have hslice : sliceBytes full (pos + 1) (pos + 2 + octal_extra rest2) =
                          some (first :: rest2.take (octal_extra rest2)) := by
                        rw [sliceBytes_ascii full (pos + 1) (pos + 2 + octal_extra rest2) hA
                          (by omega) (by omega)]
                        congr 1
                        have h4 : pos + 2 + octal_extra rest2 - (pos + 1) =
                            1 + octal_extra rest2 := by omega
                        rw [h4, hrest1]
                        simp [List.take_cons, Nat.add_comm 1 (octal_extra rest2)]
                      have hsp : escape_sequences_spec ('\\' :: first :: rest2) =
                          (if octal_list_val (first :: rest2.take (octal_extra rest2)) ≤ 255 then
                            (escape_sequences_spec (rest2.drop (octal_extra rest2))).map
                              (Char.ofNat
                                (octal_list_val (first :: rest2.take (octal_extra rest2))) :: ·)
                           else none) := by
                        rw [escape_sequences_spec, if_pos (show ('\\' : Char) = '\\' from rfl),
                          spec_escape, hsimple]
                        simp only [Option.elim]
                        rw [if_pos (show is_digit_8 first = true from hdig)]
                      have hdropend : full.drop (pos + 2 + octal_extra rest2) =
                          rest2.drop (octal_extra rest2) := by
                        rw [← List.drop_drop, hrest2]
                      rw [hslice]
                      simp only [Option.elim]
                      rw [from_str_radix_8_digits _ (by simp)
                        (octal_take_all first rest2 hdig)]
                      by_cases hval :
                          octal_list_val (first :: rest2.take (octal_extra rest2)) ≤ 255
                      · rw [if_pos hval]
                        simp only [Option.elim]
                        rw [ih (pos + 1) (pos + 2 + octal_extra rest2) _ hrest1.symm
                            (fun _ => by simp),
                          Nat.max_eq_right (by omega), hdropend, hsp, if_pos hval,
                          ofOption_map_cons]
                        rfl
                      · rw [if_neg hval]
                        simp only [Option.elim]
                        rw [hsp, if_neg hval]
                        rfl
        · rw [pesLoop]
          simp only [if_neg hskip, if_neg hbs]
          rw [ih (pos + 1) skipUntil (owned.map (fun o => o ++ [c])) hrest1.symm
              (fun h => absurd h (by omega)),
            Nat.max_eq_left (by omega), hrest1,
            show escape_sequences_spec (c :: rest') =
                (escape_sequences_spec rest').map (c :: ·) from by
              simp [escape_sequences_spec, hbs]]
          cases owned with
          | none =>
              rw [take_succ_of_drop_cons hdrop]
              rw [ofOption_map_cons]
              rfl
          | some o =>
              rw [ofOption_map_cons]
              rfl

/-! ### The fuel evaluator agrees with the spec decoder -/

theorem specFuel_eq : ∀ (n : Nat) (s : List Char), s.length ≤ n →
    specFuel n s = escape_sequences_spec s := by
  intro n
  induction n with
  | zero =>
      intro s hs
      obtain rfl : s = [] := List.length_eq_zero.mp (Nat.le_zero.mp hs)
      rw [show escape_sequences_spec [] = some [] from by rw [escape_sequences_spec]]
      rfl
  | succ n ih =>
      intro s hs
      cases s with
      | nil =>
          rw [show escape_sequences_spec [] = some [] from by rw [escape_sequences_spec]]
          rfl
      | cons c tl =>
          simp only [List.length_cons] at hs
          by_cases hbs : c = '\\'
          · subst hbs
            cases tl with
            | nil =>
                show (none : Option (List Char)) = escape_sequences_spec ['\\']
                rw [escape_sequences_spec, if_pos rfl,
                  show spec_escape [] = none from by rw [spec_escape]]
            | cons e tl2 =>
                simp only [List.length_cons] at hs
                show Option.elim (simple_escape_char e)
                    (if is_digit_8 e then
                      (if octal_list_val (e :: tl2.take (octal_extra tl2)) ≤ 255 then
                        (specFuel n (tl2.drop (octal_extra tl2))).map
                          (Char.ofNat (octal_list_val (e :: tl2.take (octal_extra tl2))) :: ·)
                       else none)
                     else (specFuel n tl2).map (e :: ·))
                    (fun r => (specFuel n tl2).map (r :: ·)) =
                  escape_sequences_spec ('\\' :: e :: tl2)
                rw [escape_sequences_spec, if_pos rfl, spec_escape]
                cases hse : simple_escape_char e with
                | some r =>
                    simp only [Option.elim]
                    rw [ih tl2 (by omega)]
                | none =>
                    simp only [Option.elim]
                    by_cases hd : is_digit_8 e
                    · rw [if_pos hd, if_pos hd]
                      by_cases hv : octal_list_val (e :: tl2.take (octal_extra tl2)) ≤ 255
                      · rw [if_pos hv, if_pos hv,
                          ih (tl2.drop (octal_extra tl2)) (by simp; omega)]
                      · rw [if_neg hv, if_neg hv]
                    · rw [if_neg hd, if_neg hd, ih tl2 (by omega)]
          · cases tl with
            | nil =>
                have hstep : specFuel (n + 1) [c] =
                    if c = '\\' then none else (specFuel n []).map (c :: ·) := rfl
                rw [hstep, escape_sequences_spec, if_neg hbs, if_neg hbs, ih [] (by omega)]
            | cons d tl2 =>
                have hstep : specFuel (n + 1) (c :: d :: tl2) =
                    if c = '\\' then
                      Option.elim (simple_escape_char d)
                        (if is_digit_8 d then
                          (if octal_list_val (d :: tl2.take (octal_extra tl2)) ≤ 255 then
                            (specFuel n (tl2.drop (octal_extra tl2))).map
                              (Char.ofNat
                                (octal_list_val (d :: tl2.take (octal_extra tl2))) :: ·)
                           else none)
                         else (specFuel n tl2).map (d :: ·))
                        (fun r => (specFuel n tl2).map (r :: ·))
                    else (specFuel n (d :: tl2)).map (c :: ·) := rfl
                rw [hstep, escape_sequences_spec, if_neg hbs, if_neg hbs,
                  ih (d :: tl2) (by simp only [List.length_cons] at hs ⊢; omega)]

/-- On an all-ASCII input the decoder agrees with the specification's clauses
(every character position is then also a byte position, so no slice can cut a
character). -/
theorem pes_eq_spec_ascii (s : List Char) (hA : ∀ c ∈ s, c.toNat < 128) :
    process_escape_sequences s = RustOutcome.ofOption (escape_sequences_spec s) := by
  have h := pesLoop_eq_spec s hA s 0 0 none (List.drop_zero s).symm
    (fun h' => absurd h' (Nat.lt_irrefl 0))
  rw [Nat.max_self, List.drop_zero] at h
  show pesLoop s s 0 0 none = _
  rw [h]
  cases escape_sequences_spec s <;> rfl

/-- Concrete evaluation of the decoder on an ASCII input, through the fuel
evaluator. -/
theorem pes_ascii_eval (s t : List Char) (hA : ∀ c ∈ s, c.toNat < 128)
    (h : specFuel s.length s = some t) : process_escape_sequences s = .ok t := by
  rw [pes_eq_spec_ascii s hA, ← specFuel_eq s.length s le_rfl, h]
  rfl

/-! ### Extraction lemmas -/

theorem extract_literals_loop_min (pw : Bool) (m : Nat) :
    ∀ (ents : List EntityData) (accum res : List PotentialLeak),
      (∀ l ∈ accum, m ≤ l.bytes.length) →
      extract_literals_loop pw m ents accum = .ok res →
      ∀ l ∈ res, m ≤ l.bytes.length := by
  intro ents
  induction ents with
  | nil =>
      intro accum res hacc h
      rw [extract_literals_loop] at h
      injection h with h2
      subst h2
      exact hacc
  | cons ent rest ih =>
      intro accum res hacc h
      rw [extract_literals_loop] at h
      cases hconv : potential_leak_try_from ent pw with
      | panicked =>
          rw [hconv] at h
          exact RustOutcome.noConfusion h
      | err =>
          rw [hconv] at h
          exact ih accum res hacc h
      | ok pl =>
          rw [hconv] at h
          replace h : (if m ≤ pl.bytes.length then
              extract_literals_loop pw m rest (accum ++ [pl])
            else extract_literals_loop pw m rest accum) = .ok res := h
          by_cases hsz : m ≤ pl.bytes.length
          · rw [if_pos hsz] at h
            refine ih (accum ++ [pl]) res ?_ h
            intro x hx
            rcases List.mem_append.mp hx with hx1 | hx2
            · exact hacc x hx1
            · rw [List.mem_singleton.mp hx2]
              exact hsz
          · rw [if_neg hsz] at h
            exact ih accum res hacc h

theorem extract_tus_loop_min (pw : Bool) (m : Nat) (filt : List EntityKind) (ish : Bool) :
    ∀ (tus : List EntityTree) (accum res : List PotentialLeak),
      (∀ l ∈ accum, m ≤ l.bytes.length) →
      extract_tus_loop pw m filt ish tus accum = .ok res →
      ∀ l ∈ res, m ≤ l.bytes.length := by
  intro tus
  induction tus with
  | nil =>
      intro accum res hacc h
      rw [extract_tus_loop] at h
      injection h with h2
      subst h2
      exact hacc
  | cons tu rest ih =>
      intro accum res hacc h
      rw [extract_tus_loop] at h
      cases hx : extract_literals_loop pw m (gather_entities_by_kind tu filt ish) accum with
      | panicked =>
          rw [hx] at h
          exact RustOutcome.noConfusion h
      | err =>
          rw [hx] at h
          exact RustOutcome.noConfusion h
      | ok accum2 =>
          rw [hx] at h
          exact ih accum2 res
            (extract_literals_loop_min pw m _ accum accum2 hacc hx) h

/-! ### Claim theorems: escape decoder -/

/-- C2 counterexample: the claimed clauses fail on a payload with multi-byte
characters before the escape. On `éé\n` the decoder returns `é\n` — ONE `é`,
not two — because the backslash's character position 2 is used as a byte count
(`&string[..position]`, potential_leak.rs line 281), which takes only the
first two BYTES of the text before the backslash, i.e. the single two-byte
character `é`. The clauses say non-escaped characters pass through unchanged,
which would give `éé\n`. -/
theorem escape_decoder_clauses_counterexample :
    process_escape_sequences ['é', 'é', '\\', 'n'] = .ok ['é', Char.ofNat 10] ∧
    escape_sequences_spec ['é', 'é', '\\', 'n'] = some ['é', 'é', Char.ofNat 10] ∧
    (['é', Char.ofNat 10] : List Char) ≠ ['é', 'é', Char.ofNat 10] := by
  refine ⟨?_, ?_, by decide⟩
  · show pesLoop ['é', 'é', '\\', 'n'] ['é', 'é', '\\', 'n'] 0 0 none = _
    rw [pesLoop, if_neg (by decide : ¬(0 : Nat) < 0), if_neg (by decide : ¬('é' = '\\'))]
    show pesLoop ['é', 'é', '\\', 'n'] ['é', '\\', 'n'] 1 0 none = _
    rw [pesLoop, if_neg (by decide : ¬(1 : Nat) < 0), if_neg (by decide : ¬('é' = '\\'))]
    show pesLoop ['é', 'é', '\\', 'n'] ['\\', 'n'] 2 0 none = _
    rw [pesLoop, if_neg (by decide : ¬(2 : Nat) < 0), if_pos (rfl : ('\\' : Char) = '\\')]
    show pesEscape ['é', 'é', '\\', 'n'] ['n'] 2 ['é'] = _
    rw [pesEscape]
    show pesLoop ['é', 'é', '\\', 'n'] ['n'] 3 4 (some ['é', Char.ofNat 10]) = _
    rw [pesLoop, if_pos (by decide : (3 : Nat) < 4)]
    show pesLoop ['é', 'é', '\\', 'n'] [] 4 4 (some ['é', Char.ofNat 10]) = _
    rw [pesLoop]
    rfl
  · rw [← specFuel_eq 4 ['é', 'é', '\\', 'n'] (by decide)]
    decide

/-- C2 (amended): on every ALL-ASCII payload `process_escape_sequences`
implements exactly the claimed clauses — `\a..\r` map to 0x07..0x0D, any other
single-character escape passes the character verbatim, an octal escape absorbs
one to three octal digits read base 8 into one byte, non-escaped characters
pass through, and a lone trailing backslash is an error (`escape_sequences_spec`
is the direct transcription of those clauses). On payloads containing
multi-byte characters the claim fails: character positions are used as byte
indices, so the decoder drops data or panics (see the counterexample and C10). -/
theorem escape_decoder_clauses (s : List Char) (hA : ∀ c ∈ s, c.toNat < 128) :
    process_escape_sequences s = RustOutcome.ofOption (escape_sequences_spec s) :=
  pes_eq_spec_ascii s hA

/-- Witness for C2: the spec's octal vector `\0\1\2\3\4\5\6\7\10\100` is
all-ASCII, the theorem applies to it, and the clauses decode it to the bytes
00 01 02 03 04 05 06 07 08 40. -/
theorem escape_decoder_clauses_witness :
    (∀ c ∈ octal_vec, c.toNat < 128) ∧
    process_escape_sequences octal_vec =
      RustOutcome.ofOption (escape_sequences_spec octal_vec) ∧
    escape_sequences_spec octal_vec =
      some (([0, 1, 2, 3, 4, 5, 6, 7, 8, 0x40] : List Nat).map Char.ofNat) :=
  ⟨by decide, escape_decoder_clauses octal_vec (by decide),
    by rw [← specFuel_eq 23 octal_vec (by decide)]; decide⟩

/-- C10: the decoder is NOT total. On the payload `é\a` it panics: the
backslash's character-enumeration position 1 is used as a byte index into the
string (`&string[..position]`, potential_leak.rs line 281), and byte 1 sits
inside the two-byte UTF-8 encoding of `é`, not on a character boundary, so the
slice panics. -/
theorem escape_decoder_totality :
    process_escape_sequences ['é', '\\', 'a'] = RustOutcome.panicked ∧
    takeBytes ['é', '\\', 'a'] 1 = none := by
  refine ⟨?_, by decide⟩
  show pesLoop ['é', '\\', 'a'] ['é', '\\', 'a'] 0 0 none = _
  rw [pesLoop, if_neg (by decide : ¬(0 : Nat) < 0), if_neg (by decide : ¬('é' = '\\'))]
  show pesLoop ['é', '\\', 'a'] ['\\', 'a'] 1 0 none = _
  rw [pesLoop, if_neg (by decide : ¬(1 : Nat) < 0), if_pos (rfl : ('\\' : Char) = '\\')]
  rfl

/-! ### Claim theorems: string-literal encodings -/

/-- C4: wide literals (`L"..."`) encode their escaped payload as UTF-16LE under
`WideCharMode::Windows` and as UTF-32LE under `WideCharMode::Unix`; with no
mode given, the platform default applies (UTF-16LE when `cfg!(windows)`,
UTF-32LE otherwise); every `U"..."` literal encodes as UTF-32LE under every
mode and platform; and `L"hi"` yields the claimed concrete byte vectors. -/
theorem wide_string_platform_variance :
    (∀ (lit p : List Char) (pw : Bool), parse_string_literal lit = .ok (.wide, p) →
      string_literal_to_bytes lit (some .windows) pw =
          (process_escape_sequences p).map encode_utf16_bytes ∧
        string_literal_to_bytes lit (some .unix) pw =
          (process_escape_sequences p).map encode_utf32_bytes ∧
        string_literal_to_bytes lit none true =
          string_literal_to_bytes lit (some .windows) true ∧
        string_literal_to_bytes lit none false =
          string_literal_to_bytes lit (some .unix) false) ∧
    (∀ (lit p : List Char) (m : Option WideCharMode) (pw : Bool),
      parse_string_literal lit = .ok (.utf32, p) →
      string_literal_to_bytes lit m pw =
        (process_escape_sequences p).map encode_utf32_bytes) ∧
    string_literal_to_bytes ['L', '"', 'h', 'i', '"'] (some .windows) false =
      .ok [0x68, 0, 0x69, 0] ∧
    string_literal_to_bytes ['L', '"', 'h', 'i', '"'] (some .unix) true =
      .ok [0x68, 0, 0, 0, 0x69, 0, 0, 0] := by
  have hred16 : ∀ (lit p : List Char) (m : Option WideCharMode) (pw : Bool),
      parse_string_literal lit = .ok (.wide, p) →
      m.getD (if pw then .windows else .unix) = .windows →
      string_literal_to_bytes lit m pw =
        match process_escape_sequences p with
        | .panicked => .panicked
        | .err => .err
        | .ok chars => .ok (encode_utf16_bytes chars) := by
    intro lit p m pw h hm
    unfold string_literal_to_bytes
    rw [h, hm]
  have hred32 : ∀ (lit p : List Char) (m : Option WideCharMode) (pw : Bool),
      parse_string_literal lit = .ok (.wide, p) →
      m.getD (if pw then .windows else .unix) = .unix →
      string_literal_to_bytes lit m pw =
        match process_escape_sequences p with
        | .panicked => .panicked
        | .err => .err
        | .ok chars => .ok (encode_utf32_bytes chars) := by
    intro lit p m pw h hm
    unfold string_literal_to_bytes
    rw [h, hm]
  have hpes : process_escape_sequences ['h', 'i'] = .ok ['h', 'i'] :=
    pes_ascii_eval ['h', 'i'] ['h', 'i'] (by decide) (by decide)
  have hparseL : parse_string_literal ['L', '"', 'h', 'i', '"'] = .ok (.wide, ['h', 'i']) := by
    decide
  refine ⟨?_, ?_, ?_, ?_⟩
  · intro lit p pw h
    refine ⟨?_, ?_, ?_, ?_⟩
    · rw [hred16 lit p (some .windows) pw h rfl]
      cases process_escape_sequences p <;> rfl
    · rw [hred32 lit p (some .unix) pw h rfl]
      cases process_escape_sequences p <;> rfl
    · rw [hred16 lit p none true h rfl, hred16 lit p (some .windows) true h rfl]
    · rw [hred32 lit p none false h rfl, hred32 lit p (some .unix) false h rfl]
  · intro lit p m pw h
    have hred : string_literal_to_bytes lit m pw =
        match process_escape_sequences p with
        | .panicked => .panicked
        | .err => .err
        | .ok chars => .ok (encode_utf32_bytes chars) := by
      unfold string_literal_to_bytes
      rw [h]
    rw [hred]
    cases process_escape_sequences p <;> rfl
  · rw [hred16 ['L', '"', 'h', 'i', '"'] ['h', 'i'] (some .windows) false hparseL rfl, hpes]
    decide
  · rw [hred32 ['L', '"', 'h', 'i', '"'] ['h', 'i'] (some .unix) true hparseL rfl, hpes]
    decide

/-- Witness for C4: the theorem applied to the concrete literals `L"hi"` and
`U"hi"`. -/
theorem wide_string_platform_variance_witness :
    parse_string_literal ['L', '"', 'h', 'i', '"'] = .ok (.wide, ['h', 'i']) ∧
    string_literal_to_bytes ['L', '"', 'h', 'i', '"'] (some .unix) false =
      (process_escape_sequences ['h', 'i']).map encode_utf32_bytes ∧
    parse_string_literal ['U', '"', 'h', 'i', '"'] = .ok (.utf32, ['h', 'i']) ∧
    string_literal_to_bytes ['U', '"', 'h', 'i', '"'] none false =
      (process_escape_sequences ['h', 'i']).map encode_utf32_bytes :=
  ⟨by decide, (wide_string_platform_variance.1 _ _ false (by decide)).2.1,
   by decide, wide_string_platform_variance.2.1 _ _ none false (by decide)⟩

/-- C5 counterexample: the claim's universal UTF-16 clause fails for a literal
with a multi-byte second character. For `u` `é` `"` the code slices BYTES
`2..len-1`, and byte 2 sits inside the two-byte `é`, so decoding panics
instead of producing the UTF-16LE encoding of the (empty) payload that the
claim's character-based reading prescribes. -/
theorem u_prefix_disambiguation_counterexample :
    string_literal_to_bytes ['u', 'é', '"'] none false = RustOutcome.panicked ∧
    sliceBytes ['u', 'é', '"'] 2 (utf8ByteLen ['u', 'é', '"'] - 1) = none ∧
    RustOutcome.panicked ≠
      (RustOutcome.ok (encode_utf16_bytes ([] : List Char)) : RustOutcome (List Nat)) := by
  decide

/-- C5 (amended): a literal starting with `u` of fewer than three characters
is an error; `u8"` routes the BYTE slice `3..len-1` of the literal to UTF-8
encoding; any other second/third character pair routes the BYTE slice
`2..len-1` to UTF-16LE — the third character need not be `"` — provided the
slice boundaries fall on character boundaries (a multi-byte character at the
cut panics instead, see the counterexample). -/
theorem u_prefix_disambiguation :
    (∀ (rest : List Char) (m : Option WideCharMode) (pw : Bool), rest.length < 2 →
      string_literal_to_bytes ('u' :: rest) m pw = .err) ∧
    (∀ (rest2 p : List Char) (m : Option WideCharMode) (pw : Bool),
      sliceBytes ('u' :: '8' :: '"' :: rest2) 3
          (utf8ByteLen ('u' :: '8' :: '"' :: rest2) - 1) = some p →
      string_literal_to_bytes ('u' :: '8' :: '"' :: rest2) m pw =
        (process_escape_sequences p).map utf8Encode) ∧
    (∀ (second third : Char) (rest2 p : List Char) (m : Option WideCharMode) (pw : Bool),
      ¬(second = '8' ∧ third = '"') →
      sliceBytes ('u' :: second :: third :: rest2) 2
          (utf8ByteLen ('u' :: second :: third :: rest2) - 1) = some p →
      string_literal_to_bytes ('u' :: second :: third :: rest2) m pw =
        (process_escape_sequences p).map encode_utf16_bytes) := by
  refine ⟨?_, ?_, ?_⟩
  · intro rest m pw h
    cases rest with
    | nil => rfl
    | cons c rest' =>
        cases rest' with
        | nil => rfl
        | cons d r2 =>
            simp only [List.length_cons] at h
            omega
  · intro rest2 p m pw hs
    have hp : parse_string_literal ('u' :: '8' :: '"' :: rest2) = .ok (.utf8, p) := by
      rw [show parse_string_literal ('u' :: '8' :: '"' :: rest2) =
          (match sliceBytes ('u' :: '8' :: '"' :: rest2) 3
              (utf8ByteLen ('u' :: '8' :: '"' :: rest2) - 1) with
            | none => RustOutcome.panicked
            | some q => RustOutcome.ok (.utf8, q)) from rfl, hs]
    have hred : string_literal_to_bytes ('u' :: '8' :: '"' :: rest2) m pw =
        match process_escape_sequences p with
        | .panicked => .panicked
        | .err => .err
        | .ok chars => .ok (utf8Encode chars) := by
      unfold string_literal_to_bytes
      rw [hp]
    rw [hred]
    cases process_escape_sequences p <;> rfl
  · intro second third rest2 p m pw hns hs
    have hp : parse_string_literal ('u' :: second :: third :: rest2) = .ok (.utf16, p) := by
      rw [show parse_string_literal ('u' :: second :: third :: rest2) =
          (if second = '8' ∧ third = '"' then
            match sliceBytes ('u' :: second :: third :: rest2) 3
                (utf8ByteLen ('u' :: second :: third :: rest2) - 1) with
            | none => RustOutcome.panicked
            | some q => RustOutcome.ok (.utf8, q)
           else
            match sliceBytes ('u' :: second :: third :: rest2) 2
                (utf8ByteLen ('u' :: second :: third :: rest2) - 1) with
            | none => RustOutcome.panicked
            | some q => RustOutcome.ok (.utf16, q)) from rfl,
        if_neg hns, hs]
    have hred : string_literal_to_bytes ('u' :: second :: third :: rest2) m pw =
        match process_escape_sequences p with
        | .panicked => .panicked
        | .err => .err
        | .ok chars => .ok (encode_utf16_bytes chars) := by
      unfold string_literal_to_bytes
      rw [hp]
    rw [hred]
    cases process_escape_sequences p <;> rfl

/-- Witness for C5: the three clauses applied to `u"` (too short), `u8"hi"`
and `u"hi"`. -/
theorem u_prefix_disambiguation_witness :
    string_literal_to_bytes ['u', '"'] none false = .err ∧
    string_literal_to_bytes ['u', '8', '"', 'h', 'i', '"'] none false =
      (process_escape_sequences ['h', 'i']).map utf8Encode ∧
    string_literal_to_bytes ['u', '"', 'h', 'i', '"'] none false =
      (process_escape_sequences ['h', 'i']).map encode_utf16_bytes :=
  ⟨u_prefix_disambiguation.1 ['"'] none false (by decide),
   u_prefix_disambiguation.2.1 ['h', 'i', '"'] ['h', 'i'] none false (by decide),
   u_prefix_disambiguation.2.2 '"' 'h' ['i', '"'] ['h', 'i'] none false (by decide)
     (by decide)⟩

/-! ### Claim theorems: artifact extraction -/

/-- C6: every candidate set produced by artifact extraction respects the
configured minimum leak size — a converted entity whose byte pattern is
shorter than `minimum_leak_size` is filtered out (src/src/main.rs line 329)
and never reaches the scanner. -/
theorem minimum_size_invariant (tus : List EntityTree) (filt : List EntityKind)
    (ish : Bool) (m : Nat) (pw : Bool) (res : List PotentialLeak)
    (h : extract_artifacts_from_source_files tus filt ish m pw = .ok res) :
    ∀ l ∈ res, m ≤ l.bytes.length :=
  extract_tus_loop_min pw m filt ish tus [] res
    (fun _ hx => absurd hx (List.not_mem_nil _)) h

/-- Witness for C6: on the demo translation unit with minimum size 4, the
extraction keeps `MyStruct` (8 bytes) and drops the two-byte `ab`, and every
kept candidate meets the bound. -/
theorem minimum_size_invariant_witness :
    extract_artifacts_from_source_files [demo_tu] [.structDecl] false 4 false =
      .ok [⟨.structName, ['M', 'y', 'S', 't', 'r', 'u', 'c', 't'],
        utf8Encode ['M', 'y', 'S', 't', 'r', 'u', 'c', 't'], ⟨"demo.cc", 3⟩⟩] ∧
    ∀ l ∈ [(⟨.structName, ['M', 'y', 'S', 't', 'r', 'u', 'c', 't'],
        utf8Encode ['M', 'y', 'S', 't', 'r', 'u', 'c', 't'], ⟨"demo.cc", 3⟩⟩ :
          PotentialLeak)],
      4 ≤ l.bytes.length :=
  ⟨by decide, minimum_size_invariant [demo_tu] [.structDecl] false 4 false _ (by decide)⟩

/-- C8: struct and class declarations become candidates. Converting a
StructDecl (resp. ClassDecl) entity with a file location yields a
PotentialLeak whose data is the declaration's display name and whose bytes
are that name's UTF-8 encoding; whenever struct names are not ignored the
kind filter contains both declaration kinds; and the demo source declaring
`struct MyStruct` and `class MyClass` contributes exactly those two names to
the candidate set. The kind-filter wiring is modelled from the spec, the
repository snapshot's src/main.rs predating it. -/
theorem struct_class_name_candidates :
    (∀ (e : EntityData) (pw : Bool) (loc : SourceLocation) (name : List Char),
      e.location = some loc → e.display_name = some name →
      (e.kind = .structDecl →
        potential_leak_try_from e pw = .ok ⟨.structName, name, utf8Encode name, loc⟩) ∧
      (e.kind = .classDecl →
        potential_leak_try_from e pw = .ok ⟨.className, name, utf8Encode name, loc⟩)) ∧
    (∀ isl : Bool, EntityKind.structDecl ∈ entity_kind_filter_set isl false ∧
      EntityKind.classDecl ∈ entity_kind_filter_set isl false) ∧
    extract_artifacts_from_source_files [demo_tu] (entity_kind_filter_set false false)
        false 3 false =
      .ok [⟨.structName, ['M', 'y', 'S', 't', 'r', 'u', 'c', 't'],
             utf8Encode ['M', 'y', 'S', 't', 'r', 'u', 'c', 't'], ⟨"demo.cc", 3⟩⟩,
           ⟨.className, ['M', 'y', 'C', 'l', 'a', 's', 's'],
             utf8Encode ['M', 'y', 'C', 'l', 'a', 's', 's'], ⟨"demo.cc", 4⟩⟩] := by
  refine ⟨?_, ?_, by decide⟩
  · intro e pw loc name hloc hname
    constructor
    · intro hk
      unfold potential_leak_try_from
      rw [hloc, hk, hname]
      rfl
    · intro hk
      unfold potential_leak_try_from
      rw [hloc, hk, hname]
      rfl
  · intro isl
    cases isl <;> exact ⟨by decide, by decide⟩

/-- Witness for C8: the conversion clause applied to the demo `MyStruct`
entity. -/
theorem struct_class_name_candidates_witness :
    demo_struct_entity.location = some ⟨"demo.cc", 3⟩ ∧
    demo_struct_entity.display_name = some ['M', 'y', 'S', 't', 'r', 'u', 'c', 't'] ∧
    demo_struct_entity.kind = .structDecl ∧
    potential_leak_try_from demo_struct_entity false =
      .ok ⟨.structName, ['M', 'y', 'S', 't', 'r', 'u', 'c', 't'],
        utf8Encode ['M', 'y', 'S', 't', 'r', 'u', 'c', 't'], ⟨"demo.cc", 3⟩⟩ :=
  ⟨rfl, rfl, rfl,
    (struct_class_name_candidates.1 demo_struct_entity false ⟨"demo.cc", 3⟩
      ['M', 'y', 'S', 't', 'r', 'u', 'c', 't'] rfl rfl).1 rfl⟩

end Cpplumber
